import Mathlib

/-!
Shallow embedding of the chemical-equation balancer (src/chemical.rs and
src/reaction.rs) together with proofs checking the repository's
natural-language specification against it.

Modelling conventions:
* Rust `HashMap<String, usize>` becomes an association list with unique keys,
  kept in first-insertion order; only the key → value mapping is observable in
  the source, the order is a determinization of the hash map's arbitrary one.
* Rust `HashSet` iteration order (used to order the matrix rows) is likewise
  determinized to first-seen order; a variant `solveWithElems` keeps the order
  as an explicit parameter so that order dependence can be stated.
* A Rust `panic!` (failed `assert!`, `.expect`, integer division by zero) is
  modelled as the `aborted` outcome, distinct from an ordinary return.
* `i64` / `usize` arithmetic is modelled on unbounded `Int` / `Nat`; overflow
  is outside the scope of every claim treated here.
* The two `while` loops of the binary gcd are modelled with an explicit fuel
  parameter; the fuel supplied is proved sufficient for all inputs the source
  can reach (positive operands), so exhaustion is dead code.
-/

set_option maxHeartbeats 1000000

namespace Chemef

/-- Outcome of running Rust code that can `panic!` (abort the process)
instead of returning a value. -/
inductive RustRes (α : Type) where
  | aborted
  | ret (a : α)
  deriving DecidableEq, Repr

/-- Control flow of one iteration of the parser loop in `parse_chemical`:
`aborted` models a failed `.expect`, `retNone` models the source's early
`return None`, `cont` continues with the next loop state. -/
inductive Flow (α : Type) where
  | aborted
  | retNone
  | cont (a : α)
  deriving DecidableEq, Repr

/-- `Chemical` from src/chemical.rs: `parts: HashMap<String, usize>` plus the
original text.  The map is modelled as an association list with unique keys. -/
structure Chemical where
  parts : List (String × Nat)
  display : String
  deriving DecidableEq, Repr

/-- `create_or_add` from src/chemical.rs: add `value` to the entry at `key`,
inserting the key if absent. -/
def create_or_add (map : List (String × Nat)) (key : String) (value : Nat) :
    List (String × Nat) :=
  if map.any (fun kv => kv.1 = key) then
    map.map (fun kv => if kv.1 = key then (kv.1, kv.2 + value) else kv)
  else map ++ [(key, value)]

/-- The `State` enum local to `parse_chemical` (Rust `None` and `DeepNone`
are rendered `start` and `deepStart`). -/
inductive StateTag where
  | start
  | shallowLetter
  | shallowDigit
  | deepStart
  | deepLetter
  | deepDigit
  | deepEnd
  | compositeDigit
  deriving DecidableEq, Repr

/-- The mutable locals of `parse_chemical`: `name`, `count`,
`composite_count`, `parts`, `parts_stack` and the state tag. -/
structure PState where
  name : String
  count : Nat
  composite : Nat
  parts : List (String × Nat)
  stack : List (List (String × Nat))
  tag : StateTag
  deriving DecidableEq, Repr

/-- Character class `'A'..='Z'` of the Rust match arms. -/
def isUpperAZ (c : Char) : Bool := 'A' ≤ c && c ≤ 'Z'

/-- Character class `'a'..='z'`. -/
def isLowerAZ (c : Char) : Bool := 'a' ≤ c && c ≤ 'z'

/-- Character class `'0'..='9'`. -/
def isDigit09 (c : Char) : Bool := '0' ≤ c && c ≤ '9'

/-- Character class `'1'..='9'`. -/
def isDigit19 (c : Char) : Bool := '1' ≤ c && c ≤ '9'

/-- `c as usize - '0' as usize` for a digit character. -/
def digitVal (c : Char) : Nat := c.toNat - '0'.toNat

/-- The merge loop of the `DeepEnd` / `CompositeDigit` arms: each entry of the
just-closed group's accumulator, scaled by `mult`, is added into the saved
accumulator (the `DeepEnd` arm has no multiplication, i.e. `mult = 1`). -/
def mergeInto (saved inner : List (String × Nat)) (mult : Nat) :
    List (String × Nat) :=
  inner.foldl (fun acc kv => create_or_add acc kv.1 (kv.2 * mult)) saved

/-- The character dispatch shared by the `(State::DeepEnd, _)` and
`(State::CompositeDigit, _)` arms, run after the group has been merged:
an uppercase letter starts a new element name (shallow if the stack emptied),
`)` closes the enclosing group, `(` opens a sibling group, anything else is
`return None`. -/
def afterGroupClose (merged : List (String × Nat))
    (rest : List (List (String × Nat))) (st : PState) (c : Char) :
    Flow PState :=
  if isUpperAZ c then
    .cont { st with parts := merged, stack := rest, name := st.name.push c,
                    tag := if rest.isEmpty then .shallowLetter else .deepLetter }
  else if c = ')' then
    .cont { st with parts := merged, stack := rest, tag := .deepEnd }
  else if c = '(' then
    .cont { st with parts := [], stack := merged :: rest, tag := .deepStart }
  else .retNone

/-- One iteration of the `for c in input.chars()` loop of `parse_chemical`:
the big `match (state, c)` of src/chemical.rs lines 30-192, arm for arm.
The `_ => return None` catch-all becomes `retNone`; the
`parts_stack.pop().expect(..)` on an empty stack becomes `aborted`. -/
def parseStep (st : PState) (c : Char) : Flow PState :=
  match st.tag with
  | .start =>
    if isUpperAZ c then
      .cont { st with name := st.name.push c, tag := .shallowLetter }
    else if c = '(' then
      .cont { st with stack := st.parts :: st.stack, parts := [],
                      tag := .deepStart }
    else .retNone
  | .shallowLetter =>
    if isUpperAZ c then
      .cont { st with parts := create_or_add st.parts st.name 1,
                      name := String.singleton c, tag := .shallowLetter }
    else if isLowerAZ c then
      .cont { st with name := st.name.push c }
    else if isDigit19 c then
      .cont { st with count := digitVal c, tag := .shallowDigit }
    else if c = '(' then
      .cont { st with parts := [],
                      stack := create_or_add st.parts st.name 1 :: st.stack,
                      name := "", tag := .deepStart }
    else .retNone
  | .shallowDigit =>
    if isUpperAZ c then
      .cont { st with parts := create_or_add st.parts st.name st.count,
                      name := String.singleton c, tag := .shallowLetter }
    else if isDigit09 c then
      .cont { st with count := st.count * 10 + digitVal c }
    else if c = '(' then
      .cont { st with parts := [],
                      stack := create_or_add st.parts st.name st.count :: st.stack,
                      name := "", tag := .deepStart }
    else .retNone
  | .deepStart =>
    if isUpperAZ c then
      .cont { st with name := st.name.push c, tag := .deepLetter }
    else .retNone
  | .deepLetter =>
    if isUpperAZ c then
      .cont { st with parts := create_or_add st.parts st.name 1,
                      name := String.singleton c, tag := .deepLetter }
    else if isLowerAZ c then
      .cont { st with name := st.name.push c }
    else if isDigit19 c then
      .cont { st with count := digitVal c, tag := .deepDigit }
    else if c = '(' then
      .cont { st with parts := [],
                      stack := create_or_add st.parts st.name 1 :: st.stack,
                      name := "", tag := .deepStart }
    else if c = ')' then
      .cont { st with parts := create_or_add st.parts st.name 1,
                      name := "", tag := .deepEnd }
    else .retNone
  | .deepDigit =>
    if isUpperAZ c then
      .cont { st with parts := create_or_add st.parts st.name st.count,
                      name := String.singleton c, tag := .deepLetter }
    else if isDigit09 c then
      .cont { st with count := st.count * 10 + digitVal c }
    else if c = '(' then
      .cont { st with parts := [],
                      stack := create_or_add st.parts st.name st.count :: st.stack,
                      name := "", tag := .deepStart }
    else if c = ')' then
      .cont { st with parts := create_or_add st.parts st.name st.count,
                      name := "", tag := .deepEnd }
    else .retNone
  | .deepEnd =>
    if isDigit19 c then
      .cont { st with composite := digitVal c, tag := .compositeDigit }
    else
      match st.stack with
      | [] => .aborted
      | saved :: rest => afterGroupClose (mergeInto saved st.parts 1) rest st c
  | .compositeDigit =>
    if isDigit09 c then
      .cont { st with composite := st.composite * 10 + digitVal c }
    else
      match st.stack with
      | [] => .aborted
      | saved :: rest =>
        afterGroupClose (mergeInto saved st.parts st.composite) rest st c

/-- Runs `parseStep` over the remaining input characters. -/
def runSteps : PState → List Char → Flow PState
  | st, [] => .cont st
  | st, c :: cs =>
    match parseStep st c with
    | .aborted => .aborted
    | .retNone => .retNone
    | .cont st' => runSteps st' cs

/-- The `match state` after the loop of `parse_chemical` (lines 194-222):
finalizes the pending element or group at end of input.  Note the source pops
exactly one stack level in the `DeepEnd` / `CompositeDigit` arms and silently
drops any remaining levels, as does this translation. -/
def finalize (st : PState) : Flow (List (String × Nat)) :=
  match st.tag with
  | .shallowLetter => .cont (create_or_add st.parts st.name 1)
  | .shallowDigit => .cont (create_or_add st.parts st.name st.count)
  | .deepEnd =>
    match st.stack with
    | [] => .aborted
    | saved :: _ => .cont (mergeInto saved st.parts 1)
  | .compositeDigit =>
    match st.stack with
    | [] => .aborted
    | saved :: _ => .cont (mergeInto saved st.parts st.composite)
  | .start => .cont st.parts
  | _ => .retNone

/-- Initial values of the locals of `parse_chemical`. -/
def initState : PState := ⟨"", 0, 0, [], [], .start⟩

/-- `parse_chemical` from src/chemical.rs: `Option<Chemical>` on normal
return, `aborted` when the source would panic. -/
def parse_chemical (input : String) : RustRes (Option Chemical) :=
  match runSteps initState input.toList with
  | .aborted => .aborted
  | .retNone => .ret none
  | .cont st =>
    match finalize st with
    | .aborted => .aborted
    | .retNone => .ret none
    | .cont parts => .ret (some ⟨parts, input⟩)

/-- `ReactionError` from src/reaction.rs.  Note the source has no
`ArithmeticInvalid` variant. -/
inductive ReactionError where
  | UnbalancedElements
  | InfiniteSolution
  deriving DecidableEq, Repr

/-- `HashSet::insert`, determinized to keep first-insertion order. -/
def insertNew (l : List String) (e : String) : List String :=
  if l.contains e then l else l ++ [e]

/-- The reagent loop of `get_elements_involved`: the set of element symbols
appearing in any reagent (first-seen order). -/
def reagentElements (reagents : List Chemical) : List String :=
  reagents.foldl (fun acc c => c.parts.foldl (fun a kv => insertNew a kv.1) acc) []

/-- `get_elements_involved` from src/reaction.rs: fails with
`UnbalancedElements` when some product contains an element no reagent has. -/
def get_elements_involved (reagents products : List Chemical) :
    Except ReactionError (List String) :=
  let elementList := reagentElements reagents
  if products.any (fun p => p.parts.any (fun kv => !(elementList.contains kv.1))) then
    .error .UnbalancedElements
  else .ok elementList

/-- `ReactionMatrix` from src/reaction.rs: row-major flat matrix. -/
structure ReactionMatrix where
  matrix : List Int
  columns : Nat
  deriving DecidableEq, Repr

/-- `reagent.parts.get(element).cloned().unwrap_or(0)`. -/
def lookupCount (parts : List (String × Nat)) (e : String) : Nat :=
  match parts.find? (fun kv => kv.1 = e) with
  | some kv => kv.2
  | none => 0

/-- The matrix-building loops of `create_linear_equation`, with the element
iteration order passed in explicitly: one row per element, reagent counts
positive, product counts negated. -/
def buildMatrix (elems : List String) (reagents products : List Chemical) :
    ReactionMatrix :=
  ⟨(elems.map (fun e =>
      reagents.map (fun c => (lookupCount c.parts e : Int)) ++
      products.map (fun c => -(lookupCount c.parts e : Int)))).flatten,
   reagents.length + products.length⟩

/-- `create_linear_equation` from src/reaction.rs. -/
def create_linear_equation (reagents products : List Chemical) :
    Except ReactionError ReactionMatrix :=
  match get_elements_involved reagents products with
  | .error e => .error e
  | .ok elems => .ok (buildMatrix elems reagents products)

/-- The `while a & 1 == 0 { a >>= 1 }` loop of the binary gcd inside `lcm`,
with fuel (the loop diverges for `a = 0`, which the source never reaches). -/
def oddPart : Nat → Nat → Option Nat
  | 0, _ => none
  | fuel + 1, a => if a % 2 = 0 then oddPart fuel (a / 2) else some a

/-- The `while ((a | b) & 1) == 0` loop of the binary gcd: strips common
factors of two, returning the shift count and the stripped operands. -/
def stripShift : Nat → Nat → Nat → Option (Nat × Nat × Nat)
  | 0, _, _ => none
  | fuel + 1, a, b =>
    if a % 2 = 0 ∧ b % 2 = 0 then
      (stripShift fuel (a / 2) (b / 2)).map (fun sab => (sab.1 + 1, sab.2))
    else some (0, a, b)

/-- The main `loop { .. }` of the binary gcd: strip twos from `b`, swap so
that `a ≤ b`, subtract, stop when the difference reaches zero. -/
def steinLoop : Nat → Nat → Nat → Option Nat
  | 0, _, _ => none
  | fuel + 1, a, b =>
    match oddPart (b + 1) b with
    | none => none
    | some bOdd =>
      let p := if bOdd < a then (bOdd, a) else (a, bOdd)
      let b2 := p.2 - p.1
      if b2 = 0 then some p.1 else steinLoop fuel p.1 b2

/-- The nested `fn gcd` of `lcm` in src/reaction.rs (binary / Stein gcd). -/
def gcd (a b : Nat) : Option Nat :=
  if a = b then some a
  else
    match stripShift (a + 1) a b with
    | none => none
    | some (shift, a1, b1) =>
      match oddPart (a1 + 1) a1 with
      | none => none
      | some a2 => (steinLoop (a2 + b1 + 1) a2 b1).map (fun g => g <<< shift)

/-- `lcm` from src/reaction.rs: `assert!(a > 0)` and `assert!(b > 0)` become
`aborted`; the fuel-exhaustion branch is dead code for positive operands
(lemma `gcd_eq` below). -/
def lcm (a b : Int) : RustRes Int :=
  if a ≤ 0 then .aborted
  else if b ≤ 0 then .aborted
  else
    match gcd a.toNat b.toNat with
    | none => .aborted
    | some g => .ret (a * b / (g : Int))

/-- `swap_row` from src/reaction.rs. -/
def swap_row (vec : List Int) (row1 row2 columns : Nat) : List Int :=
  (List.range columns).foldl
    (fun v column =>
      let i1 := row1 * columns + column
      let i2 := row2 * columns + column
      let x1 := v.getD i1 0
      let x2 := v.getD i2 0
      (v.set i1 x2).set i2 x1)
    vec

/-- `cancel_row` from src/reaction.rs: zero the entry of row `row2` in column
`firstNonzero` by replacing row `row2` with the lcm-scaled difference of the
two rows, from that column rightwards. -/
def cancel_row (vec : List Int) (row1 row2 columns firstNonzero : Nat) :
    RustRes (List Int) :=
  let i1 := row1 * columns + firstNonzero
  let i2 := row2 * columns + firstNonzero
  if vec.getD i2 0 ≠ 0 then
    match lcm |vec.getD i1 0| |vec.getD i2 0| with
    | .aborted => .aborted
    | .ret l =>
      let row1Factor := l / vec.getD i1 0
      let row2Factor := l / vec.getD i2 0
      .ret ((List.range (columns - firstNonzero)).foldl
        (fun v k =>
          let column := firstNonzero + k
          let cancelled := v.getD (row1 * columns + column) 0 * row1Factor -
            v.getD (row2 * columns + column) 0 * row2Factor
          v.set (row2 * columns + column) cancelled)
        vec)
  else .ret vec

/-- The pivot search of `integer_gauss`: if the diagonal entry is zero, swap
in the first lower row with a nonzero entry in that column. -/
def pivotSwap (vec : List Int) (row columns rows : Nat) : List Int :=
  if vec.getD (row * columns + row) 0 = 0 then
    match (List.range' (row + 1) (rows - (row + 1))).find?
        (fun o => !(vec.getD (o * columns + row) 0 == 0)) with
    | some other => swap_row vec row other columns
    | none => vec
  else vec

/-- The inner `for other_row in (row + 1)..rows` cancellation loop. -/
def cancelBelow (vec : List Int) (row columns rows : Nat) : RustRes (List Int) :=
  (List.range' (row + 1) (rows - (row + 1))).foldl
    (fun res other =>
      match res with
      | .aborted => .aborted
      | .ret v => cancel_row v row other columns row)
    (.ret vec)

/-- The forward-elimination loop of `integer_gauss`. -/
def elimination (vec : List Int) (columns rows least : Nat) : RustRes (List Int) :=
  (List.range least).foldl
    (fun res row =>
      match res with
      | .aborted => .aborted
      | .ret v => cancelBelow (pivotSwap v row columns rows) row columns rows)
    (.ret vec)

/-- The signed sum over already-solved columns in the back-substitution of
`integer_gauss`: `solutions[i]` is the value of column `columns - 1 - i`. -/
def otherSum (vec : List Int) (columns row : Nat) (sols : List Int) : Int :=
  (List.range (columns - (row + 1))).foldl
    (fun acc i =>
      acc + vec.getD (row * columns + (columns - 1 - i)) 0 * sols.getD i 0)
    0

/-- One back-substitution step of `integer_gauss`: scale the solved values by
`lcm / |sum|` and append the new coefficient `lcm / |pivot|`. -/
def backSubStep (vec : List Int) (columns row : Nat) (sols : List Int) :
    RustRes (List Int) :=
  match lcm |vec.getD (row * columns + row) 0| |otherSum vec columns row sols| with
  | .aborted => .aborted
  | .ret l =>
    .ret (sols.map (fun sol => sol * (l / |otherSum vec columns row sols|)) ++
      [l / |vec.getD (row * columns + row) 0|])

/-- The `for row in (0..least_required_rows).rev()` back-substitution loop. -/
def backSubAux (vec : List Int) (columns : Nat) :
    List Nat → List Int → RustRes (List Int)
  | [], sols => .ret sols
  | r :: rs, sols =>
    match backSubStep vec columns r sols with
    | .aborted => .aborted
    | .ret sols' => backSubAux vec columns rs sols'

/-- `integer_gauss` from src/reaction.rs.  With `columns = 0` the source
divides by zero in `matrix.len() / columns` and panics, hence `aborted`. -/
def integer_gauss (rm : ReactionMatrix) : RustRes (Except ReactionError (List Int)) :=
  if rm.columns = 0 then .aborted
  else if rm.matrix.length / rm.columns < rm.columns - 1 then
    .ret (.error .InfiniteSolution)
  else
    match elimination rm.matrix rm.columns (rm.matrix.length / rm.columns)
        (rm.columns - 1) with
    | .aborted => .aborted
    | .ret m =>
      match backSubAux m rm.columns ((List.range (rm.columns - 1)).reverse) [1] with
      | .aborted => .aborted
      | .ret sols => .ret (.ok sols.reverse)

/-- The solver run on an explicitly given element iteration order: this is
`calculate_coefficients` after a successful element check, with the hash-set
iteration order made a parameter. -/
def solveWithElems (elems : List String) (reagents products : List Chemical) :
    RustRes (Except ReactionError (List Int)) :=
  integer_gauss (buildMatrix elems reagents products)

/-- `calculate_coefficients` from src/reaction.rs. -/
def calculate_coefficients (reagents products : List Chemical) :
    RustRes (Except ReactionError (List Int)) :=
  match get_elements_involved reagents products with
  | .error e => .ret (.error e)
  | .ok elems => solveWithElems elems reagents products

/-- Greatest common divisor of all entries of an integer list. -/
def listGcd (l : List Int) : Nat := l.foldr (fun x g => Nat.gcd x.natAbs g) 0

/-- Decidable equality for `Except`, needed to evaluate solver results on
concrete inputs. -/
instance {ε α : Type} [DecidableEq ε] [DecidableEq α] : DecidableEq (Except ε α) :=
  fun x y =>
    match x, y with
    | .ok a, .ok b =>
      if h : a = b then isTrue (by rw [h]) else isFalse (by simp [h])
    | .error a, .error b =>
      if h : a = b then isTrue (by rw [h]) else isFalse (by simp [h])
    | .ok _, .error _ => isFalse (by simp)
    | .error _, .ok _ => isFalse (by simp)

/-! Concrete chemicals used as test inputs, written as the parser would
produce them (first-seen key order). -/

/-- The formula `H2`. -/
def chemH2 : Chemical := ⟨[("H", 2)], "H2"⟩

/-- The formula `O2`. -/
def chemO2 : Chemical := ⟨[("O", 2)], "O2"⟩

/-- The formula `H2O`. -/
def chemH2O : Chemical := ⟨[("H", 2), ("O", 1)], "H2O"⟩

/-- The formula `AB3` (opaque element symbols `A` and `B`). -/
def chemAB3 : Chemical := ⟨[("A", 1), ("B", 3)], "AB3"⟩

/-- The formula `AB2`. -/
def chemAB2 : Chemical := ⟨[("A", 1), ("B", 2)], "AB2"⟩

/-- The formula `AB`. -/
def chemAB : Chemical := ⟨[("A", 1), ("B", 1)], "AB"⟩

/-- The formula `HO`. -/
def chemHO : Chemical := ⟨[("H", 1), ("O", 1)], "HO"⟩

/-- The formula `H2O3`. -/
def chemH2O3 : Chemical := ⟨[("H", 2), ("O", 3)], "H2O3"⟩

/-- C1: refuted on the code.  On reagents `AB3, AB2` and product `AB` (all
three parse, as shown by the last conjunct) `calculate_coefficients`
succeeds with the coefficient vector `[1, 2, 1]`, yet element `A` is not
balanced: the reagent side carries `1·1 + 2·1 = 3` atoms of `A` against
`1·1 = 1` on the product side.  The claimed round-trip invariant therefore
fails on a successful solve. -/
theorem C1_unbalanced_success :
    calculate_coefficients [chemAB3, chemAB2] [chemAB] = .ret (.ok [1, 2, 1]) ∧
    1 * lookupCount chemAB3.parts ("A") + 2 * lookupCount chemAB2.parts ("A") ≠
      1 * lookupCount chemAB.parts ("A") ∧
    parse_chemical ("AB3") = .ret (some chemAB3) ∧
    parse_chemical ("AB2") = .ret (some chemAB2) ∧
    parse_chemical ("AB") = .ret (some chemAB) := by decide

/-- C2: refuted on the code.  On reagents `H2, H2O` and product `H2O` the
back-substitution reaches `other_sum = 0` and calls `lcm(2, 0)`, whose
`assert!(b > 0)` aborts the process: `calculate_coefficients` panics instead
of returning any `Result` (the source's `ReactionError` has no
`ArithmeticInvalid` variant at all). -/
theorem C2_process_abort :
    calculate_coefficients [chemH2, chemH2O] [chemH2O] = .aborted := by decide

/-- C3: refuted on the code.  On `"(A))"`, whose second `)` has no matching
open `(`, the parser panics (the `DeepEnd` arm pops `parts_stack` with
`.expect` after the stack has emptied) instead of returning `None`; and on
`"(A(B)"`, where end-of-input is reached with a group still open, it
returns a successful partial result instead of `None`. -/
theorem C3_unmatched_paren :
    parse_chemical ("(A))") = .aborted ∧
    parse_chemical ("(A(B)") =
      .ret (some { parts := [("A", 1), ("B", 1)], display := "(A(B)" }) := by
  decide

/-- C4: refuted on the code.  The parser has no transition for `(` while in
the `DeepNone` state, so a group whose first character is another `(` is
rejected: `parse_chemical("((OH)2)3")` returns `None` rather than
succeeding with counts `O:6, H:6`. -/
theorem C4_nested_open_rejected :
    parse_chemical ("((OH)2)3") = .ret none := by decide

/-- C10: the empty string parses successfully to a `Chemical` with an empty
counts map and empty source text; it is not a parse failure. -/
theorem C10_empty_input :
    parse_chemical ("") = .ret (some { parts := [], display := "" }) := by decide

/-- C5: counterexample.  The element iteration order of the solver comes from
a randomly-seeded `HashSet`, so two runs on the same input may enumerate the
same element set in different orders.  Both `["H", "O"]` (the first-seen
order) and its permutation `["O", "H"]` are possible enumerations of the
element set of `solve([HO], [H2O3])`, and they produce different coefficient
vectors, so equal inputs do not always produce equal results. -/
theorem C5_order_dependent :
    (["H", "O"] : List String).Perm ["O", "H"] ∧
    reagentElements [chemHO] = ["H", "O"] ∧
    get_elements_involved [chemHO] [chemH2O3] = .ok ["H", "O"] ∧
    solveWithElems ["H", "O"] [chemHO] [chemH2O3] = .ret (.ok [2, 1]) ∧
    solveWithElems ["O", "H"] [chemHO] [chemH2O3] = .ret (.ok [3, 1]) := by
  refine ⟨?_, by decide, by decide, by decide, by decide⟩
  exact List.Perm.swap ("O") ("H") []

/-- C5 (amended): `parse_chemical` is a deterministic function of the input
string, and the solver is deterministic once the element iteration order is
fixed; equal inputs under the same order give equal results. -/
theorem C5_deterministic_given_order (s t : String) (hst : s = t)
    (elems : List String) (r r' p p' : List Chemical)
    (hr : r = r') (hp : p = p') :
    parse_chemical s = parse_chemical t ∧
    solveWithElems elems r p = solveWithElems elems r' p' := by
  subst hst; subst hr; subst hp; exact ⟨rfl, rfl⟩

/-- C5 witness: the amended determinism statement at a concrete input. -/
theorem C5_deterministic_witness :
    parse_chemical ("H2") = parse_chemical ("H2") ∧
    solveWithElems ["H"] [chemH2] [chemH2] = solveWithElems ["H"] [chemH2] [chemH2] :=
  C5_deterministic_given_order ("H2") ("H2") rfl ["H"] [chemH2] [chemH2] [chemH2]
    [chemH2] rfl rfl

/-- Membership in `insertNew`. -/
theorem mem_insertNew (l : List String) (e x : String) :
    x ∈ insertNew l e ↔ x ∈ l ∨ x = e := by
  unfold insertNew
  by_cases h : l.contains e = true
  · rw [if_pos h]
    have he : e ∈ l := List.elem_iff.mp h
    constructor
    · exact fun hx => Or.inl hx
    · rintro (hx | rfl)
      · exact hx
      · exact he
  · rw [if_neg h]
    simp [List.mem_append]

/-- Membership after folding the elements of one chemical into the set. -/
theorem mem_foldl_insert (parts : List (String × Nat)) (init : List String)
    (x : String) :
    x ∈ parts.foldl (fun a kv => insertNew a kv.1) init ↔
      x ∈ init ∨ ∃ kv ∈ parts, kv.1 = x := by
  induction parts generalizing init with
  | nil => simp
  | cons kv rest ih =>
    rw [List.foldl_cons, ih, mem_insertNew]
    constructor
    · rintro ((hx | rfl) | ⟨kv2, h2, rfl⟩)
      · exact Or.inl hx
      · exact Or.inr ⟨kv, List.mem_cons_self kv rest, rfl⟩
      · exact Or.inr ⟨kv2, List.mem_cons_of_mem kv h2, rfl⟩
    · rintro (hx | ⟨kv2, h2, rfl⟩)
      · exact Or.inl (Or.inl hx)
      · rcases List.mem_cons.mp h2 with rfl | h3
        · exact Or.inl (Or.inr rfl)
        · exact Or.inr ⟨kv2, h3, rfl⟩

/-- Membership in the reagent element set after folding any chemical list. -/
theorem mem_foldl_reagents (reagents : List Chemical) (init : List String)
    (x : String) :
    x ∈ reagents.foldl
        (fun acc c => c.parts.foldl (fun a kv => insertNew a kv.1) acc) init ↔
      x ∈ init ∨ ∃ c ∈ reagents, ∃ kv ∈ c.parts, kv.1 = x := by
  induction reagents generalizing init with
  | nil => simp
  | cons c rest ih =>
    rw [List.foldl_cons, ih, mem_foldl_insert]
    constructor
    · rintro ((hx | ⟨kv, hkv, rfl⟩) | ⟨c2, h2, hkv2⟩)
      · exact Or.inl hx
      · exact Or.inr ⟨c, List.mem_cons_self c rest, kv, hkv, rfl⟩
      · exact Or.inr ⟨c2, List.mem_cons_of_mem c h2, hkv2⟩
    · rintro (hx | ⟨c2, h2, hkv2⟩)
      · exact Or.inl (Or.inl hx)
      · rcases List.mem_cons.mp h2 with rfl | h3
        · exact Or.inl (Or.inr hkv2)
        · exact Or.inr ⟨c2, h3, hkv2⟩

/-- An element belongs to `reagentElements` exactly when some reagent's
counts map contains it as a key. -/
theorem mem_reagentElements (reagents : List Chemical) (x : String) :
    x ∈ reagentElements reagents ↔
      ∃ c ∈ reagents, ∃ kv ∈ c.parts, kv.1 = x := by
  rw [reagentElements, mem_foldl_reagents]
  simp

/-- `integer_gauss` can fail only with `InfiniteSolution`; it never produces
`UnbalancedElements`. -/
theorem integer_gauss_ne_unbalanced (rm : ReactionMatrix) :
    integer_gauss rm ≠ .ret (.error .UnbalancedElements) := by
  unfold integer_gauss
  split
  · simp
  · split
    · decide
    · split
      · simp
      · split
        · simp
        · simp

/-- C6: `calculate_coefficients` fails with `UnbalancedElements` exactly when
some product's counts contain an element symbol that no reagent's counts
contain; this is decided by `get_elements_involved` before the solver can
produce any other outcome, so no other failure can precede it. -/
theorem C6_unbalanced_iff (reagents products : List Chemical) :
    calculate_coefficients reagents products = .ret (.error .UnbalancedElements) ↔
      ∃ p ∈ products, ∃ kv ∈ p.parts,
        ¬ ∃ c ∈ reagents, ∃ kv2 ∈ c.parts, kv2.1 = kv.1 := by
  unfold calculate_coefficients get_elements_involved
  by_cases hc : products.any
      (fun p => p.parts.any (fun kv => !((reagentElements reagents).contains kv.1))) = true
  · simp only [hc, if_pos]
    constructor
    · intro _
      rcases List.any_eq_true.mp hc with ⟨p, hp, hp2⟩
      rcases List.any_eq_true.mp hp2 with ⟨kv, hkv, hkv2⟩
      refine ⟨p, hp, kv, hkv, ?_⟩
      intro hmem
      rw [Bool.not_eq_true', ← Bool.not_eq_true] at hkv2
      exact hkv2 (List.elem_iff.mpr ((mem_reagentElements reagents kv.1).mpr hmem))
    · intro _; trivial
  · simp only [hc, if_neg, Bool.false_eq_true, not_false_iff]
    constructor
    · intro h
      exact absurd h (integer_gauss_ne_unbalanced _)
    · rintro ⟨p, hp, kv, hkv, hno⟩
      exfalso
      apply hc
      refine List.any_eq_true.mpr ⟨p, hp, List.any_eq_true.mpr ⟨kv, hkv, ?_⟩⟩
      rw [Bool.not_eq_true']
      rw [← Bool.not_eq_true]
      intro hcontains
      exact hno ((mem_reagentElements reagents kv.1).mp (List.elem_iff.mp hcontains))

/-- The matrix built by `create_linear_equation` has one row of `columns`
entries per element. -/
theorem buildMatrix_length (elems : List String) (reagents products : List Chemical) :
    (buildMatrix elems reagents products).matrix.length =
      elems.length * (reagents.length + products.length) := by
  show ((elems.map fun e =>
      reagents.map (fun c => (lookupCount c.parts e : Int)) ++
      products.map fun c => -(lookupCount c.parts e : Int)).flatten).length = _
  induction elems with
  | nil => simp
  | cons e rest ih =>
    simp only [List.map_cons, List.flatten_cons, List.length_append,
      List.length_map, List.length_cons, ih]
    ring

/-- C7: once the element check passes with element list `elems`, the matrix
has `rows = elems.length` and `columns = reagents + products`; whenever
`rows < columns - 1` the solver fails with `InfiniteSolution`. -/
theorem C7_infinite_solution (reagents products : List Chemical) (elems : List String)
    (h : get_elements_involved reagents products = .ok elems)
    (hlt : elems.length < reagents.length + products.length - 1) :
    calculate_coefficients reagents products = .ret (.error .InfiniteSolution) := by
  have hcols : (buildMatrix elems reagents products).columns =
      reagents.length + products.length := rfl
  have hlen := buildMatrix_length elems reagents products
  have hc0 : ¬ reagents.length + products.length = 0 := by omega
  have hrows : elems.length * (reagents.length + products.length) /
      (reagents.length + products.length) = elems.length :=
    Nat.mul_div_cancel elems.length (by omega)
  simp only [calculate_coefficients, h, solveWithElems, integer_gauss, hlen, hcols]
  rw [if_neg hc0, hrows, if_pos hlt]

/-- C7 witness: `solve([H2, H2], [H2])` has one element and three chemicals,
so it fails with `InfiniteSolution`. -/
theorem C7_witness :
    get_elements_involved [chemH2, chemH2] [chemH2] = .ok ["H"] ∧
    (["H"] : List String).length < [chemH2, chemH2].length + [chemH2].length - 1 ∧
    calculate_coefficients [chemH2, chemH2] [chemH2] = .ret (.error .InfiniteSolution) :=
  ⟨by decide, by decide,
    C7_infinite_solution [chemH2, chemH2] [chemH2] ["H"] (by decide) (by decide)⟩

/-- Stripping factors of two from an odd positive number: `oddPart` succeeds
within its fuel and returns the odd part. -/
theorem oddPart_spec (fuel b : Nat) (hb : 0 < b) (hf : b < fuel) :
    ∃ k r, oddPart fuel b = some r ∧ b = 2 ^ k * r ∧ r % 2 = 1 := by
  induction fuel generalizing b with
  | zero => omega
  | succ n ih =>
    by_cases he : b % 2 = 0
    · have hrec := ih (b / 2) (by omega) (by omega)
      rcases hrec with ⟨k, r, h1, h2, h3⟩
      refine ⟨k + 1, r, ?_, ?_, h3⟩
      · simp [oddPart, he, h1]
      · have hb2 : b = 2 * (b / 2) := by omega
        rw [hb2, h2]; ring
    · exact ⟨0, b, by simp [oddPart, he], by ring, by omega⟩

/-- For odd `a`, factors of two in the other operand do not change the gcd. -/
theorem gcd_two_pow_mul_right (a k r : Nat) (h : a % 2 = 1) :
    Nat.gcd a (2 ^ k * r) = Nat.gcd a r := by
  have hcop : Nat.Coprime (2 ^ k) a := by
    apply Nat.Coprime.pow_left
    exact Nat.coprime_two_left.mpr (Nat.odd_iff.mpr h)
  exact Nat.Coprime.gcd_mul_left_cancel_right r hcop

/-- The subtraction loop of the binary gcd computes `Nat.gcd` for odd
positive `a` and positive `b`, given fuel at least `a + b`. -/
theorem steinLoop_spec (fuel a b : Nat) (ha2 : a % 2 = 1) (ha : 0 < a)
    (hb : 0 < b) (hf : a + b ≤ fuel) :
    steinLoop fuel a b = some (Nat.gcd a b) := by
  induction fuel generalizing a b with
  | zero => omega
  | succ n ih =>
    rcases oddPart_spec (b + 1) b hb (by omega) with ⟨k, bOdd, h1, h2, h3⟩
    have hbOddPos : 0 < bOdd := by
      rcases Nat.eq_zero_or_pos bOdd with h | h
      · rw [h, Nat.mul_zero] at h2; omega
      · exact h
    have hbOddLe : bOdd ≤ b := by
      rw [h2]
      exact Nat.le_mul_of_pos_left bOdd (Nat.pos_pow_of_pos k (by omega))
    have hgcdb : Nat.gcd a b = Nat.gcd a bOdd := by
      rw [h2, gcd_two_pow_mul_right a k bOdd ha2]
    by_cases hlt : bOdd < a
    · have hb2 : ¬ (a - bOdd = 0) := by omega
      simp only [steinLoop, h1, if_pos hlt, if_neg hb2]
      rw [ih bOdd (a - bOdd) h3 hbOddPos (by omega) (by omega)]
      rw [Nat.gcd_sub_self_right (by omega), Nat.gcd_comm bOdd a, hgcdb]
    · by_cases hz : bOdd - a = 0
      · have hab : a = bOdd := by omega
        simp only [steinLoop, h1, if_neg hlt, if_pos hz]
        rw [hgcdb, hab, Nat.gcd_self]
      · simp only [steinLoop, h1, if_neg hlt, if_neg hz]
        rw [ih a (bOdd - a) ha2 ha (by omega) (by omega)]
        rw [Nat.gcd_sub_self_right (by omega), hgcdb]

/-- The common-factor-of-two stripping loop succeeds with fuel above `a`. -/
theorem stripShift_spec (fuel a b : Nat) (ha : 0 < a) (hf : a < fuel) :
    ∃ s a1 b1, stripShift fuel a b = some (s, a1, b1) ∧
      a = 2 ^ s * a1 ∧ b = 2 ^ s * b1 ∧ ¬(a1 % 2 = 0 ∧ b1 % 2 = 0) ∧ 0 < a1 := by
  induction fuel generalizing a b with
  | zero => omega
  | succ n ih =>
    by_cases he : a % 2 = 0 ∧ b % 2 = 0
    · rcases ih (a / 2) (b / 2) (by omega) (by omega) with ⟨s, a1, b1, h1, h2, h3, h4, h5⟩
      refine ⟨s + 1, a1, b1, ?_, ?_, ?_, h4, h5⟩
      · simp [stripShift, he, h1]
      · have ha2 : a = 2 * (a / 2) := by omega
        rw [ha2, h2]; ring
      · have hb2 : b = 2 * (b / 2) := by omega
        rw [hb2, h3]; ring
    · exact ⟨0, a, b, by simp [stripShift, he], by ring, by ring, he, ha⟩

/-- The source's binary gcd computes `Nat.gcd` on positive operands: its
fuel is sufficient and its result is the mathematical gcd. -/
theorem gcd_eq (a b : Nat) (ha : 0 < a) (hb : 0 < b) :
    gcd a b = some (Nat.gcd a b) := by
  unfold gcd
  by_cases hab : a = b
  · subst hab; simp [Nat.gcd_self]
  · rw [if_neg hab]
    rcases stripShift_spec (a + 1) a b ha (by omega) with ⟨s, a1, b1, h1, h2, h3, h4, h5⟩
    rw [h1]
    dsimp only
    rcases oddPart_spec (a1 + 1) a1 h5 (by omega) with ⟨k, a2, g1, g2, g3⟩
    rw [g1]
    dsimp only
    have ha2pos : 0 < a2 := by
      rcases Nat.eq_zero_or_pos a2 with h | h
      · rw [h, Nat.mul_zero] at g2; omega
      · exact h
    have hb1pos : 0 < b1 := by
      rcases Nat.eq_zero_or_pos b1 with h | h
      · rw [h, Nat.mul_zero] at h3; omega
      · exact h
    rw [steinLoop_spec (a2 + b1 + 1) a2 b1 g3 ha2pos hb1pos (by omega)]
    simp only [Option.map_some']
    congr 1
    rw [Nat.shiftLeft_eq, h2, h3, Nat.gcd_mul_left]
    have hgcd1 : Nat.gcd a1 b1 = Nat.gcd a2 b1 := by
      by_cases hb1odd : b1 % 2 = 1
      · rw [g2, Nat.gcd_comm, gcd_two_pow_mul_right b1 k a2 hb1odd, Nat.gcd_comm]
      · have ha1odd : a1 % 2 = 1 := by
          rcases Nat.mod_two_eq_zero_or_one a1 with h | h
          · exact absurd ⟨h, by omega⟩ h4
          · exact h
        have hk : a1 = a2 := by
          cases k with
          | zero => rw [g2]; ring
          | succ k2 =>
            exfalso
            have hsplit : a1 = 2 * (2 ^ k2 * a2) := by rw [g2]; ring
            omega
        rw [hk]
    rw [hgcd1]; ring

/-- The source's `lcm` on positive integer operands returns `Nat.lcm`. -/
theorem lcm_spec (a b : Nat) (ha : 0 < a) (hb : 0 < b) :
    lcm (a : Int) (b : Int) = .ret ((Nat.lcm a b : Nat) : Int) := by
  unfold lcm
  rw [if_neg (by exact_mod_cast Nat.not_le.mpr (by omega)), if_neg (by exact_mod_cast Nat.not_le.mpr (by omega))]
  rw [Int.toNat_natCast, Int.toNat_natCast, gcd_eq a b ha hb]
  congr 1

/-- A returned `lcm` result forces both operands to be positive. -/
theorem lcm_ret_pos {x y l : Int} (h : lcm x y = .ret l) : 0 < x ∧ 0 < y := by
  unfold lcm at h
  by_cases hx : x ≤ 0
  · rw [if_pos hx] at h; cases h
  · rw [if_neg hx] at h
    by_cases hy : y ≤ 0
    · rw [if_pos hy] at h; cases h
    · exact ⟨by omega, by omega⟩

/-- `listGcd` of the empty list. -/
theorem listGcd_nil : listGcd [] = 0 := rfl

/-- `listGcd` of a cons. -/
theorem listGcd_cons (x : Int) (l : List Int) :
    listGcd (x :: l) = Nat.gcd x.natAbs (listGcd l) := rfl

/-- `listGcd` after appending one element. -/
theorem listGcd_append_singleton (l : List Int) (x : Int) :
    listGcd (l ++ [x]) = Nat.gcd (listGcd l) x.natAbs := by
  induction l with
  | nil =>
    rw [List.nil_append, listGcd_cons, listGcd_nil]
    rw [Nat.gcd_zero_right, Nat.gcd_zero_left]
  | cons h t ih =>
    rw [List.cons_append, listGcd_cons, ih, listGcd_cons, Nat.gcd_assoc]

/-- Reversal does not change the gcd of a list. -/
theorem listGcd_reverse (l : List Int) : listGcd l.reverse = listGcd l := by
  induction l with
  | nil => rfl
  | cons x t ih =>
    rw [List.reverse_cons, listGcd_append_singleton, ih, listGcd_cons,
      Nat.gcd_comm]

/-- Scaling every entry scales the gcd of the list. -/
theorem listGcd_map_mul (l : List Int) (f : Int) :
    listGcd (l.map (fun x => x * f)) = listGcd l * f.natAbs := by
  induction l with
  | nil => simp [listGcd]
  | cons h t ih =>
    rw [List.map_cons, listGcd_cons, ih, listGcd_cons, Int.natAbs_mul,
      Nat.gcd_mul_right]

/-- The two cofactors `lcm / s` and `lcm / a` are coprime: this is why the
back-substitution keeps the solved list's overall gcd at `1`. -/
theorem coprime_lcm_div (a s : Nat) (ha : 0 < a) (hs : 0 < s) :
    Nat.gcd (Nat.lcm a s / s) (Nat.lcm a s / a) = 1 := by
  have hg : 0 < Nat.gcd a s := Nat.gcd_pos_of_pos_left s ha
  have hda : Nat.gcd a s ∣ a := Nat.gcd_dvd_left a s
  have hds : Nat.gcd a s ∣ s := Nat.gcd_dvd_right a s
  have hlcm1 : Nat.lcm a s = a / Nat.gcd a s * s := by
    apply Nat.eq_of_mul_eq_mul_left hg
    rw [Nat.gcd_mul_lcm, ← Nat.mul_assoc, Nat.mul_div_cancel' hda]
  have hlcm2 : Nat.lcm a s = s / Nat.gcd a s * a := by
    apply Nat.eq_of_mul_eq_mul_left hg
    rw [Nat.gcd_mul_lcm, ← Nat.mul_assoc, Nat.mul_div_cancel' hds]
    exact Nat.mul_comm a s
  have h1 : Nat.lcm a s / s = a / Nat.gcd a s := by
    rw [hlcm1, Nat.mul_div_cancel _ hs]
  have h2 : Nat.lcm a s / a = s / Nat.gcd a s := by
    rw [hlcm2, Nat.mul_div_cancel _ ha]
  rw [h1, h2]
  exact Nat.coprime_div_gcd_div_gcd hg

/-- One back-substitution step preserves positivity and unit gcd of the
solved list, and extends it by exactly one entry. -/
theorem backSubStep_inv (vec : List Int) (columns row : Nat)
    (sols sols' : List Int)
    (h : backSubStep vec columns row sols = .ret sols')
    (hpos : ∀ x ∈ sols, 0 < x) (hgcd : listGcd sols = 1) :
    (∀ x ∈ sols', 0 < x) ∧ listGcd sols' = 1 ∧
      sols'.length = sols.length + 1 := by
  unfold backSubStep at h
  split at h
  · cases h
  · rename_i L hL
    obtain ⟨hapos, hspos⟩ := lcm_ret_pos hL
    have hacast : |vec.getD (row * columns + row) 0| =
        ((|vec.getD (row * columns + row) 0|).toNat : Int) :=
      (Int.toNat_of_nonneg (by omega)).symm
    have hscast : |otherSum vec columns row sols| =
        ((|otherSum vec columns row sols|).toNat : Int) :=
      (Int.toNat_of_nonneg (by omega)).symm
    set aN := (|vec.getD (row * columns + row) 0|).toNat with haN
    set sN := (|otherSum vec columns row sols|).toNat with hsN
    have haNpos : 0 < aN := by omega
    have hsNpos : 0 < sN := by omega
    have hLval : L = ((Nat.lcm aN sN : Nat) : Int) := by
      rw [hacast, hscast] at hL
      rw [lcm_spec aN sN haNpos hsNpos] at hL
      exact (RustRes.ret.injEq _ _).mp hL.symm
    have hlcmpos : 0 < Nat.lcm aN sN := Nat.lcm_pos haNpos hsNpos
    have hdivs : L / |otherSum vec columns row sols| =
        ((Nat.lcm aN sN / sN : Nat) : Int) := by
      rw [hLval, hscast]; exact rfl
    have hdiva : L / |vec.getD (row * columns + row) 0| =
        ((Nat.lcm aN sN / aN : Nat) : Int) := by
      rw [hLval, hacast]; exact rfl
    have hqs : 0 < Nat.lcm aN sN / sN :=
      Nat.div_pos (Nat.le_of_dvd hlcmpos (Nat.dvd_lcm_right aN sN)) hsNpos
    have hqa : 0 < Nat.lcm aN sN / aN :=
      Nat.div_pos (Nat.le_of_dvd hlcmpos (Nat.dvd_lcm_left aN sN)) haNpos
    have hsols : sols' = sols.map
        (fun sol => sol * (L / |otherSum vec columns row sols|)) ++
        [L / |vec.getD (row * columns + row) 0|] :=
      ((RustRes.ret.injEq _ _).mp h).symm
    subst hsols
    refine ⟨?_, ?_, ?_⟩
    · intro x hx
      rcases List.mem_append.mp hx with hx | hx
      · rcases List.mem_map.mp hx with ⟨y, hy, rfl⟩
        have := hpos y hy
        rw [hdivs]
        exact mul_pos this (by exact_mod_cast hqs)
      · rcases List.mem_singleton.mp hx with rfl
        rw [hdiva]
        exact_mod_cast hqa
    · rw [listGcd_append_singleton, listGcd_map_mul, hgcd, Nat.one_mul,
        hdivs, hdiva, Int.natAbs_ofNat, Int.natAbs_ofNat]
      exact coprime_lcm_div aN sN haNpos hsNpos
    · rw [List.length_append, List.length_map, List.length_singleton]

/-- The back-substitution loop preserves positivity and unit gcd, adding one
entry per processed row. -/
theorem backSubAux_inv (vec : List Int) (columns : Nat) (rowsL : List Nat)
    (sols sols' : List Int)
    (h : backSubAux vec columns rowsL sols = .ret sols')
    (hpos : ∀ x ∈ sols, 0 < x) (hgcd : listGcd sols = 1) :
    (∀ x ∈ sols', 0 < x) ∧ listGcd sols' = 1 ∧
      sols'.length = sols.length + rowsL.length := by
  induction rowsL generalizing sols with
  | nil =>
    unfold backSubAux at h
    have : sols = sols' := (RustRes.ret.injEq _ _).mp h
    subst this
    exact ⟨hpos, hgcd, by simp⟩
  | cons r rs ih =>
    unfold backSubAux at h
    rcases hstep : backSubStep vec columns r sols with _ | sols1
    · rw [hstep] at h; cases h
    · rw [hstep] at h
      obtain ⟨p1, p2, p3⟩ := backSubStep_inv vec columns r sols sols1 hstep hpos hgcd
      obtain ⟨q1, q2, q3⟩ := ih sols1 h p1 p2
      refine ⟨q1, q2, ?_⟩
      rw [q3, p3, List.length_cons]
      omega

/-- C8: every successful coefficient vector has one positive entry per
chemical (length `reagents + products`) and overall gcd `1`. -/
theorem C8_success_shape (reagents products : List Chemical) (v : List Int)
    (h : calculate_coefficients reagents products = .ret (.ok v)) :
    v.length = reagents.length + products.length ∧
      (∀ x ∈ v, 0 < x) ∧ listGcd v = 1 := by
  unfold calculate_coefficients at h
  split at h
  · cases h
  · rename_i elems hE
    unfold solveWithElems integer_gauss at h
    split at h
    · cases h
    · split at h
      · cases h
      · rename_i h0 h1
        split at h
        · cases h
        · rename_i m hElim
          split at h
          · cases h
          · rename_i sols hB
            have hv : v = sols.reverse := by
              have := (RustRes.ret.injEq _ _).mp h
              exact ((Except.ok.injEq _ _).mp this).symm
            obtain ⟨q1, q2, q3⟩ := backSubAux_inv m
              (buildMatrix elems reagents products).columns
              ((List.range ((buildMatrix elems reagents products).columns - 1)).reverse)
              [1] sols hB
              (by intro x hx; rcases List.mem_singleton.mp hx with rfl; norm_num)
              (by rfl)
            subst hv
            have hcols : (buildMatrix elems reagents products).columns =
                reagents.length + products.length := rfl
            refine ⟨?_, ?_, ?_⟩
            · rw [List.length_reverse, q3, List.length_reverse, List.length_range,
                List.length_singleton]
              rw [hcols] at h0 ⊢
              omega
            · intro x hx
              exact q1 x (List.mem_reverse.mp hx)
            · rw [listGcd_reverse]; exact q2

/-- C8 witness: the repository's own water example, `solve([H2O], [H2, O2])`,
succeeds with `[2, 2, 1]`, which the theorem shows is three positive entries
with gcd `1`. -/
theorem C8_witness :
    calculate_coefficients [chemH2O] [chemH2, chemO2] = .ret (.ok [2, 2, 1]) ∧
    ([2, 2, 1] : List Int).length = [chemH2O].length + [chemH2, chemO2].length ∧
      (∀ x ∈ ([2, 2, 1] : List Int), 0 < x) ∧ listGcd [2, 2, 1] = 1 :=
  ⟨by decide, C8_success_shape [chemH2O] [chemH2, chemO2] [2, 2, 1] (by decide)⟩

/-- Invariant of one accumulator map: every stored count is at least `1` and
the keys are pairwise distinct. -/
def GoodMap (m : List (String × Nat)) : Prop :=
  (∀ kv ∈ m, 1 ≤ kv.2) ∧ (m.map Prod.fst).Nodup

/-- The empty accumulator satisfies the invariant. -/
theorem goodMap_nil : GoodMap [] := ⟨by simp, by simp⟩

/-- `create_or_add` preserves the map invariant when the added count is
positive: zero-count entries are never stored and keys stay unique. -/
theorem goodMap_create_or_add (m : List (String × Nat)) (k : String) (v : Nat)
    (hm : GoodMap m) (hv : 1 ≤ v) : GoodMap (create_or_add m k v) := by
  obtain ⟨h1, h2⟩ := hm
  unfold create_or_add
  split
  · refine ⟨?_, ?_⟩
    · intro kv hkv
      rcases List.mem_map.mp hkv with ⟨kv0, hkv0, rfl⟩
      by_cases hk : kv0.1 = k
      · have := h1 kv0 hkv0
        simp only [hk, if_pos]
        omega
      · simp only [hk, if_neg, if_false]
        exact h1 kv0 hkv0
    · have hkeys : (m.map (fun kv => if kv.1 = k then (kv.1, kv.2 + v) else kv)).map
          Prod.fst = m.map Prod.fst := by
        rw [List.map_map]
        apply List.map_congr_left
        intro kv _
        by_cases hk : kv.1 = k <;> simp [hk]
      rw [hkeys]; exact h2
  · rename_i hany
    refine ⟨?_, ?_⟩
    · intro kv hkv
      rcases List.mem_append.mp hkv with hkv | hkv
      · exact h1 kv hkv
      · rcases List.mem_singleton.mp hkv with rfl
        exact hv
    · rw [List.map_append]
      rw [List.nodup_append]
      refine ⟨h2, by simp, ?_⟩
      intro a ha hb
      rcases List.mem_singleton.mp (by simpa using hb) with rfl
      rcases List.mem_map.mp ha with ⟨kv0, hkv0, rfl⟩
      exact hany (List.any_eq_true.mpr ⟨kv0, hkv0, by simp⟩)

/-- Merging a group accumulator with a positive multiplier into a good map
yields a good map, provided the group's own counts are positive. -/
theorem goodMap_mergeInto (inner saved : List (String × Nat)) (mult : Nat)
    (hs : GoodMap saved) (hi : ∀ kv ∈ inner, 1 ≤ kv.2) (hm : 1 ≤ mult) :
    GoodMap (mergeInto saved inner mult) := by
  induction inner generalizing saved with
  | nil => exact hs
  | cons kv rest ih =>
    unfold mergeInto
    rw [List.foldl_cons]
    have hkv : 1 ≤ kv.2 := hi kv (List.mem_cons_self kv rest)
    exact ih (create_or_add saved kv.1 (kv.2 * mult))
      (goodMap_create_or_add saved kv.1 (kv.2 * mult) hs (Nat.one_le_iff_ne_zero.mpr
        (by positivity)))
      (fun kv2 h2 => hi kv2 (List.mem_cons_of_mem kv h2))

/-- The full loop invariant of `parse_chemical`: the current accumulator and
every stacked accumulator are good, and a count being read is positive as
soon as its first (nonzero) digit has been consumed. -/
def Inv (st : PState) : Prop :=
  GoodMap st.parts ∧ (∀ m ∈ st.stack, GoodMap m) ∧
    ((st.tag = .shallowDigit ∨ st.tag = .deepDigit) → 1 ≤ st.count) ∧
    (st.tag = .compositeDigit → 1 ≤ st.composite)

/-- The initial parser state satisfies the invariant. -/
theorem inv_initState : Inv initState :=
  ⟨goodMap_nil, by simp [initState], by simp [initState], by simp [initState]⟩

/-- A `'1'..='9'` character has digit value at least one. -/
theorem digitVal_ge_one (c : Char) (h : isDigit19 c = true) : 1 ≤ digitVal c := by
  unfold isDigit19 at h
  rw [Bool.and_eq_true, decide_eq_true_eq, decide_eq_true_eq] at h
  have h1 : ('1').toNat ≤ c.toNat := h.1
  have h2 : ('0').toNat = 48 := by decide
  have h3 : ('1').toNat = 49 := by decide
  unfold digitVal
  omega

/-- One parser step preserves the loop invariant. -/
theorem parseStep_inv (st st' : PState) (c : Char)
    (h : parseStep st c = .cont st') (hinv : Inv st) : Inv st' := by
  obtain ⟨hp, hs, hc, hcc⟩ := hinv
  cases htag : st.tag
  case start =>
    simp only [parseStep, htag] at h
    split_ifs at h with h1 h2
    · injection h with h'; subst h'
      exact ⟨hp, hs, by simp, by simp⟩
    · injection h with h'; subst h'
      refine ⟨goodMap_nil, ?_, by simp, by simp⟩
      intro m hm
      rcases List.mem_cons.mp hm with rfl | hm
      · exact hp
      · exact hs m hm
  case shallowLetter =>
    simp only [parseStep, htag] at h
    split_ifs at h with h1 h2 h3 h4
    · injection h with h'; subst h'
      exact ⟨goodMap_create_or_add _ _ _ hp (le_refl 1), hs, by simp, by simp⟩
    · injection h with h'; subst h'
      exact ⟨hp, hs, by simp [htag], by simp [htag]⟩
    · injection h with h'; subst h'
      exact ⟨hp, hs, fun _ => digitVal_ge_one c h3, by simp⟩
    · injection h with h'; subst h'
      refine ⟨goodMap_nil, ?_, by simp, by simp⟩
      intro m hm
      rcases List.mem_cons.mp hm with rfl | hm
      · exact goodMap_create_or_add _ _ _ hp (le_refl 1)
      · exact hs m hm
  case shallowDigit =>
    simp only [parseStep, htag] at h
    have hcount : 1 ≤ st.count := hc (Or.inl htag)
    split_ifs at h with h1 h2 h3
    · injection h with h'; subst h'
      exact ⟨goodMap_create_or_add _ _ _ hp hcount, hs, by simp, by simp⟩
    · injection h with h'; subst h'
      refine ⟨hp, hs, fun _ => ?_, by simp⟩
      show 1 ≤ st.count * 10 + digitVal c
      omega
    · injection h with h'; subst h'
      refine ⟨goodMap_nil, ?_, by simp, by simp⟩
      intro m hm
      rcases List.mem_cons.mp hm with rfl | hm
      · exact goodMap_create_or_add _ _ _ hp hcount
      · exact hs m hm
  case deepStart =>
    simp only [parseStep, htag] at h
    split_ifs at h with h1
    · injection h with h'; subst h'
      exact ⟨hp, hs, by simp, by simp⟩
  case deepLetter =>
    simp only [parseStep, htag] at h
    split_ifs at h with h1 h2 h3 h4 h5
    · injection h with h'; subst h'
      exact ⟨goodMap_create_or_add _ _ _ hp (le_refl 1), hs, by simp, by simp⟩
    · injection h with h'; subst h'
      exact ⟨hp, hs, by simp [htag], by simp [htag]⟩
    · injection h with h'; subst h'
      exact ⟨hp, hs, fun _ => digitVal_ge_one c h3, by simp⟩
    · injection h with h'; subst h'
      refine ⟨goodMap_nil, ?_, by simp, by simp⟩
      intro m hm
      rcases List.mem_cons.mp hm with rfl | hm
      · exact goodMap_create_or_add _ _ _ hp (le_refl 1)
      · exact hs m hm
    · injection h with h'; subst h'
      exact ⟨goodMap_create_or_add _ _ _ hp (le_refl 1), hs, by simp, by simp⟩
  case deepDigit =>
    simp only [parseStep, htag] at h
    have hcount : 1 ≤ st.count := hc (Or.inr htag)
    split_ifs at h with h1 h2 h3 h4
    · injection h with h'; subst h'
      exact ⟨goodMap_create_or_add _ _ _ hp hcount, hs, by simp, by simp⟩
    · injection h with h'; subst h'
      refine ⟨hp, hs, fun _ => ?_, by simp⟩
      show 1 ≤ st.count * 10 + digitVal c
      omega
    · injection h with h'; subst h'
      refine ⟨goodMap_nil, ?_, by simp, by simp⟩
      intro m hm
      rcases List.mem_cons.mp hm with rfl | hm
      · exact goodMap_create_or_add _ _ _ hp hcount
      · exact hs m hm
    · injection h with h'; subst h'
      exact ⟨goodMap_create_or_add _ _ _ hp hcount, hs, by simp, by simp⟩
  case deepEnd =>
    simp only [parseStep, htag] at h
    split_ifs at h with h1
    · injection h with h'; subst h'
      exact ⟨hp, hs, by simp, fun _ => digitVal_ge_one c h1⟩
    · cases hstack : st.stack with
      | nil => rw [hstack] at h; cases h
      | cons saved rest =>
        rw [hstack] at h
        have hsaved : GoodMap saved := hs saved (hstack ▸ List.mem_cons_self _ _)
        have hrest : ∀ m ∈ rest, GoodMap m := fun m hm =>
          hs m (hstack ▸ List.mem_cons_of_mem _ hm)
        have hmerged : GoodMap (mergeInto saved st.parts 1) :=
          goodMap_mergeInto st.parts saved 1 hsaved (fun kv hkv => hp.1 kv hkv)
            (le_refl 1)
        unfold afterGroupClose at h
        split_ifs at h with g1 g2 g3
        · injection h with h'; subst h'
          refine ⟨hmerged, hrest, ?_, ?_⟩
          · intro hx
            rcases hx with hx | hx <;> (split at hx <;> cases hx)
          · intro hx
            split at hx <;> cases hx
        · injection h with h'; subst h'
          exact ⟨hmerged, hrest, by simp, by simp⟩
        · injection h with h'; subst h'
          refine ⟨goodMap_nil, ?_, by simp, by simp⟩
          intro m hm
          rcases List.mem_cons.mp hm with rfl | hm
          · exact hmerged
          · exact hrest m hm
  case compositeDigit =>
    simp only [parseStep, htag] at h
    have hcomp : 1 ≤ st.composite := hcc htag
    split_ifs at h with h1
    · injection h with h'; subst h'
      refine ⟨hp, hs, by simp, fun _ => ?_⟩
      show 1 ≤ st.composite * 10 + digitVal c
      omega
    · cases hstack : st.stack with
      | nil => rw [hstack] at h; cases h
      | cons saved rest =>
        rw [hstack] at h
        have hsaved : GoodMap saved := hs saved (hstack ▸ List.mem_cons_self _ _)
        have hrest : ∀ m ∈ rest, GoodMap m := fun m hm =>
          hs m (hstack ▸ List.mem_cons_of_mem _ hm)
        have hmerged : GoodMap (mergeInto saved st.parts st.composite) :=
          goodMap_mergeInto st.parts saved st.composite hsaved
            (fun kv hkv => hp.1 kv hkv) hcomp
        unfold afterGroupClose at h
        split_ifs at h with g1 g2 g3
        · injection h with h'; subst h'
          refine ⟨hmerged, hrest, ?_, ?_⟩
          · intro hx
            rcases hx with hx | hx <;> (split at hx <;> cases hx)
          · intro hx
            split at hx <;> cases hx
        · injection h with h'; subst h'
          exact ⟨hmerged, hrest, by simp, by simp⟩
        · injection h with h'; subst h'
          refine ⟨goodMap_nil, ?_, by simp, by simp⟩
          intro m hm
          rcases List.mem_cons.mp hm with rfl | hm
          · exact hmerged
          · exact hrest m hm

/-- Running the parser loop preserves the invariant. -/
theorem runSteps_inv (cs : List Char) (st st' : PState)
    (h : runSteps st cs = .cont st') (hinv : Inv st) : Inv st' := by
  induction cs generalizing st with
  | nil =>
    unfold runSteps at h
    have : st = st' := (Flow.cont.injEq _ _).mp h
    subst this; exact hinv
  | cons c rest ih =>
    unfold runSteps at h
    rcases hstep : parseStep st c with _ | _ | st1
    · rw [hstep] at h; cases h
    · rw [hstep] at h; cases h
    · rw [hstep] at h
      exact ih st1 h (parseStep_inv st st1 c hstep ⟨hinv.1, hinv.2.1, hinv.2.2.1, hinv.2.2.2⟩)

/-- The finalization step of the parser produces a good map out of any state
satisfying the invariant. -/
theorem finalize_good (st : PState) (parts : List (String × Nat))
    (h : finalize st = .cont parts) (hinv : Inv st) : GoodMap parts := by
  obtain ⟨hp, hs, hc, hcc⟩ := hinv
  cases htag : st.tag
  case start =>
    simp only [finalize, htag] at h
    have : st.parts = parts := (Flow.cont.injEq _ _).mp h
    subst this; exact hp
  case shallowLetter =>
    simp only [finalize, htag] at h
    have heq : create_or_add st.parts st.name 1 = parts := (Flow.cont.injEq _ _).mp h
    subst heq
    exact goodMap_create_or_add _ _ _ hp (le_refl 1)
  case shallowDigit =>
    simp only [finalize, htag] at h
    have heq : create_or_add st.parts st.name st.count = parts :=
      (Flow.cont.injEq _ _).mp h
    subst heq
    exact goodMap_create_or_add _ _ _ hp (hc (Or.inl htag))
  case deepStart =>
    simp only [finalize, htag] at h
    cases h
  case deepLetter =>
    simp only [finalize, htag] at h
    cases h
  case deepDigit =>
    simp only [finalize, htag] at h
    cases h
  case deepEnd =>
    simp only [finalize, htag] at h
    cases hstack : st.stack with
    | nil => rw [hstack] at h; cases h
    | cons saved rest =>
      rw [hstack] at h
      have heq : mergeInto saved st.parts 1 = parts := (Flow.cont.injEq _ _).mp h
      subst heq
      exact goodMap_mergeInto st.parts saved 1
        (hs saved (hstack ▸ List.mem_cons_self _ _)) (fun kv hkv => hp.1 kv hkv)
        (le_refl 1)
  case compositeDigit =>
    simp only [finalize, htag] at h
    cases hstack : st.stack with
    | nil => rw [hstack] at h; cases h
    | cons saved rest =>
      rw [hstack] at h
      have heq : mergeInto saved st.parts st.composite = parts :=
        (Flow.cont.injEq _ _).mp h
      subst heq
      exact goodMap_mergeInto st.parts saved st.composite
        (hs saved (hstack ▸ List.mem_cons_self _ _)) (fun kv hkv => hp.1 kv hkv)
        (hcc htag)

/-- C9: every successfully parsed `Chemical` stores only counts that are at
least `1`, and each element symbol appears as a single key (duplicate
occurrences having been merged additively by `create_or_add`). -/
theorem C9_parse_invariants (input : String) (chem : Chemical)
    (h : parse_chemical input = .ret (some chem)) :
    (∀ kv ∈ chem.parts, 1 ≤ kv.2) ∧ (chem.parts.map Prod.fst).Nodup := by
  unfold parse_chemical at h
  split at h
  · cases h
  · simp at h
  · rename_i st hrun
    split at h
    · cases h
    · simp at h
    · rename_i parts hfin
      have hst : Inv st := runSteps_inv input.toList initState st hrun inv_initState
      have hgood : GoodMap parts := finalize_good st parts hfin hst
      have heq : chem = ⟨parts, input⟩ :=
        (((Option.some.injEq _ _).mp ((RustRes.ret.injEq _ _).mp h))).symm
      subst heq
      exact ⟨hgood.1, hgood.2⟩

/-- C9 witness: the repository's own test formula `CH3COONa`, whose parse
has only positive counts and pairwise-distinct keys. -/
theorem C9_witness :
    parse_chemical ("CH3COONa") =
      .ret (some { parts := [("C", 2), ("H", 3), ("O", 2), ("Na", 1)],
                   display := "CH3COONa" }) ∧
    (∀ kv ∈ [(("C" : String), 2), ("H", 3), ("O", 2), ("Na", 1)], 1 ≤ kv.2) ∧
      ([(("C" : String), 2), ("H", 3), ("O", 2), ("Na", 1)].map Prod.fst).Nodup :=
  ⟨by decide, C9_parse_invariants ("CH3COONa")
    { parts := [("C", 2), ("H", 3), ("O", 2), ("Na", 1)], display := "CH3COONa" }
    (by decide)⟩

/-- C6 witness: the spec's own example `solve([H2], [O2])` — product element
`O` is absent from the reagents, so the solver fails with
`UnbalancedElements`, obtained through the iff. -/
theorem C6_witness :
    calculate_coefficients [chemH2] [chemO2] = .ret (.error .UnbalancedElements) :=
  (C6_unbalanced_iff [chemH2] [chemO2]).mpr
    ⟨chemO2, by decide, ("O", 2), by decide, by decide⟩

end Chemef
